import Mathlib

/-!
Verification of the adk-js execution engine specification.

The event-sourced session model, the agent composition semantics
(sequential / parallel / loop), the leaf tool-invocation loop, the
`check_prime` sample tool, the two revisions of the Gemini streaming
wrapper, and the agent-graph builder are embedded below, and the
spec's testable properties are proved about them.
-/

namespace Adk

/-! ## Event & State model.

Modelled from the spec: the core engine (Session, State, Event,
`applyDelta`, `fold`) is not among the provided source files; the
definitions below follow spec sections 3 and 4.1.  A `State` is a flat
key-value mapping with last-writer-wins semantics; it is represented as
an association list in which the most recent write for a key shadows
earlier entries, observed through `getKey`. -/

abbrev Key := String
abbrev Value := String

/-- A state-delta: the ordered key-value writes an event applies. -/
abbrev Delta := List (Key × Value)

/-- The session state mapping.  Reads go through `getKey`; the entry
closest to the head wins, so `setKey` prepends. -/
abbrev State := List (Key × Value)

/-- Write one key (last write wins, observed through `getKey`). -/
def setKey (s : State) (k : Key) (v : Value) : State := (k, v) :: s

/-- Read one key: the most recent write for `k`, if any. -/
def getKey : State → Key → Option Value
  | [], _ => none
  | (k, v) :: rest, k0 => if k0 = k then some v else getKey rest k0

/-- Modelled from the spec: `applyDelta(state, delta) -> state'` merges
the delta keys into the state, last write wins, all-or-nothing. -/
def applyDelta (s : State) (d : Delta) : State :=
  d.foldl (fun acc kv => setKey acc kv.1 kv.2) s

/-- The value the delta itself assigns to `k` (its last binding for
`k`), if any. -/
def deltaLast : Delta → Key → Option Value
  | [], _ => none
  | kv :: rest, k =>
    match deltaLast rest k with
    | some v => some v
    | none => if k = kv.1 then some kv.2 else none

/-- Modelled from the spec: an Event is an immutable record of one
observable step, with invocation id, author, branch, an opaque content
payload, an optional state-delta and an escalate signal. -/
structure Event where
  invocationId : String
  author : String
  branch : String
  content : String
  stateDelta : Delta
  escalate : Bool
deriving Repr, DecidableEq

/-- Modelled from the spec: a Session owns an ordered append-only event
log and the State derived from it. -/
structure Session where
  events : List Event
  state : State
deriving Repr, DecidableEq

def Session.empty : Session := ⟨[], []⟩

/-- Modelled from the spec: appending an event to a session applies its
state-delta to the session state before the append returns. -/
def appendEvent (s : Session) (e : Event) : Session :=
  ⟨s.events ++ [e], applyDelta s.state e.stateDelta⟩

/-- Modelled from the spec: `fold(events)` is a deterministic left fold
of `applyDelta` over each event's delta in sequence order. -/
def foldEvents (st : State) (es : List Event) : State :=
  es.foldl (fun acc e => applyDelta acc e.stateDelta) st

/-- Replay: rebuild the state of a log from the empty state. -/
def replay (es : List Event) : State := foldEvents [] es

/-- The session invariant: State equals the fold of the event log. -/
def consistent (s : Session) : Prop := s.state = replay s.events

/-! ### State lemmas -/

theorem getKey_applyDelta (d : Delta) (s : State) (k : Key) :
    getKey (applyDelta s d) k =
      match deltaLast d k with
      | some v => some v
      | none => getKey s k := by
  induction d generalizing s with
  | nil => simp [applyDelta, deltaLast]
  | cons kv rest ih =>
    show getKey (applyDelta (setKey s kv.1 kv.2) rest) k = _
    rw [ih]
    simp only [deltaLast]
    cases h : deltaLast rest k with
    | some v => simp
    | none =>
      simp only [setKey, getKey]
      by_cases hk : k = kv.1 <;> simp [hk]

theorem foldEvents_append (st : State) (l₁ l₂ : List Event) :
    foldEvents st (l₁ ++ l₂) = foldEvents (foldEvents st l₁) l₂ := by
  simp [foldEvents, List.foldl_append]

/-- The fold of an incrementally built session agrees with folding the
deltas over the initial state. -/
theorem foldl_appendEvent_state (es : List Event) (s : Session) :
    (es.foldl appendEvent s).state = foldEvents s.state es := by
  induction es generalizing s with
  | nil => rfl
  | cons e rest ih => simpa [appendEvent, foldEvents] using ih (appendEvent s e)

theorem foldl_appendEvent_events (es : List Event) (s : Session) :
    (es.foldl appendEvent s).events = s.events ++ es := by
  induction es generalizing s with
  | nil => simp
  | cons e rest ih =>
    show (rest.foldl appendEvent (appendEvent s e)).events = _
    rw [ih (appendEvent s e)]
    simp [appendEvent]

theorem replay_append_singleton (es : List Event) (e : Event) :
    replay (es ++ [e]) = applyDelta (replay es) e.stateDelta := by
  simp [replay, foldEvents_append, foldEvents]

/-- C1. For every sequence of events E, folding the state-deltas of E
incrementally (applying each event's delta as it is appended) yields
exactly the same State as replaying the whole sequence from the empty
state with the same left fold of applyDelta in sequence order. -/
theorem fold_incremental_eq_replay (es : List Event) :
    (es.foldl appendEvent Session.empty).state = replay es := by
  simpa [Session.empty, replay] using foldl_appendEvent_state es Session.empty

/-- C2. After every append of an event to a Session, and before that
event is forwarded to the caller, the Session's State already reflects
the event's state-delta: the state equals the replay of the extended
log, so at no observable point do the Event log and the State disagree. -/
theorem append_preserves_consistency (s : Session) (e : Event)
    (h : consistent s) :
    (appendEvent s e).events = s.events ++ [e] ∧
    (appendEvent s e).state = replay (s.events ++ [e]) ∧
    consistent (appendEvent s e) := by
  refine ⟨rfl, ?_, ?_⟩
  · rw [replay_append_singleton, ← h]; rfl
  · show (appendEvent s e).state = replay (appendEvent s e).events
    show applyDelta s.state e.stateDelta = replay (s.events ++ [e])
    rw [replay_append_singleton, ← h]

/-- Witness for C2 at a concrete session and event. -/
theorem append_preserves_consistency_witness :
    (appendEvent Session.empty ⟨"inv", "a", "b", "c", [("x", "1")], false⟩).state
      = replay (Session.empty.events ++ [⟨"inv", "a", "b", "c", [("x", "1")], false⟩]) :=
  (append_preserves_consistency Session.empty
      ⟨"inv", "a", "b", "c", [("x", "1")], false⟩ rfl).2.1

/-! ## Agent composition.

Modelled from the spec (§4.3): an agent exposes `execute(context) ->
lazy sequence of Event`.  For the composition claims an agent run is
observed as a function from the State it reads when it starts executing
to the list of events it yields. -/

/-- Modelled from the spec: one agent execution, observed as the event
sequence it yields given the state it reads at start. -/
def AgentRun := State → List Event

/-- Modelled from the spec: drain an agent's event sequence, forwarding
each event and appending it to the session as it goes; if an event
carries the escalate signal, stop immediately and forward it as the
last event.  Returns the mutated session, the forwarded events, and
whether escalation stopped the drain. -/
def drainEvents : Session → List Event → Session × List Event × Bool
  | s, [] => (s, [], false)
  | s, e :: rest =>
    let s1 := appendEvent s e
    if e.escalate then (s1, [e], true)
    else
      let r := drainEvents s1 rest
      (r.1, e :: r.2.1, r.2.2)

/-- Modelled from the spec: a Sequential agent executes its sub-agents
in order, fully draining each sub-agent's event sequence (appending to
the session as it goes so the next sub-agent sees the previous one's
state deltas), stopping early on escalation. -/
def runSeqAgents : Session → List AgentRun → Session × List Event
  | s, [] => (s, [])
  | s, a :: rest =>
    let d := drainEvents s (a s.state)
    if d.2.2 then (d.1, d.2.1)
    else
      let r := runSeqAgents d.1 rest
      (r.1, d.2.1 ++ r.2)

/-- The latest value any event of the list writes to `k`, if any
(later events override earlier ones). -/
def lastWrite : List Event → Key → Option Value
  | [], _ => none
  | e :: es, k =>
    match lastWrite es k with
    | some v => some v
    | none => deltaLast e.stateDelta k

theorem getKey_foldEvents (es : List Event) (st : State) (k : Key) :
    getKey (foldEvents st es) k =
      match lastWrite es k with
      | some v => some v
      | none => getKey st k := by
  induction es generalizing st with
  | nil => simp [foldEvents, lastWrite]
  | cons e rest ih =>
    show getKey (foldEvents (applyDelta st e.stateDelta) rest) k = _
    rw [ih]
    simp only [lastWrite]
    cases h : lastWrite rest k with
    | some v => simp
    | none => simp [getKey_applyDelta]

/-- Draining a sequence with no escalations appends every event. -/
theorem drainEvents_no_escalate (es : List Event) (s : Session)
    (h : ∀ e ∈ es, e.escalate = false) :
    drainEvents s es = (es.foldl appendEvent s, es, false) := by
  induction es generalizing s with
  | nil => rfl
  | cons e rest ih =>
    have he : e.escalate = false := h e (List.mem_cons_self e rest)
    have hrest : ∀ x ∈ rest, x.escalate = false :=
      fun x hx => h x (List.mem_cons_of_mem e hx)
    simp [drainEvents, he, ih (appendEvent s e) hrest]

/-- C3. For every Sequential agent with sub-agents [A, B]: if A does
not escalate, the forwarded sequence is A's events followed by B's
(every event of A precedes every event of B), B starts executing
against the session state obtained by applying all of A's state-deltas,
and every key A wrote is visible to B with the value of A's last write. -/
theorem sequential_ordering_and_visibility (A B : AgentRun) (s : Session)
    (h : ∀ e ∈ A s.state, e.escalate = false) :
    runSeqAgents s [A, B] =
      (let s1 := (A s.state).foldl appendEvent s
       let d := drainEvents s1 (B s1.state)
       (d.1, A s.state ++ d.2.1)) ∧
    ((A s.state).foldl appendEvent s).state = foldEvents s.state (A s.state) ∧
    (∀ k v, lastWrite (A s.state) k = some v →
      getKey (((A s.state).foldl appendEvent s).state) k = some v) := by
  refine ⟨?_, foldl_appendEvent_state _ _, ?_⟩
  · show runSeqAgents s [A, B] = _
    simp [runSeqAgents, drainEvents_no_escalate (A s.state) s h]
  · intro k v hw
    rw [foldl_appendEvent_state, getKey_foldEvents, hw]

/-- Witness for C3: A writes x=1; B reads State and observes x=1, and
the forwarded sequence is A's events followed by B's. -/
theorem sequential_ordering_and_visibility_witness :
    getKey ((([(⟨"i", "A", "b", "", [("x", "1")], false⟩ : Event)].foldl
        appendEvent Session.empty).state)) "x" = some "1" :=
  (sequential_ordering_and_visibility
      (fun _ => [⟨"i", "A", "b", "", [("x", "1")], false⟩])
      (fun _ => []) Session.empty
      (by intro e he; simp at he; subst he; rfl)).2.2 "x" "1" rfl

/-! ## Loop agent.

Modelled from the spec (§4.3, Loop): repeatedly execute the sub-agent
group, draining each iteration's full event sequence before starting
the next; terminate when an iteration's last event carries the
escalate signal, or when the configured maximum iteration count is
reached, whichever comes first.  The sub-agent group's behavior on the
i-th iteration is observed as `body i`. -/

/-- Whether the last event of an iteration carries the escalate signal. -/
def lastEscalates (es : List Event) : Bool :=
  (es.getLast?.map Event.escalate).getD false

/-- Result of a loop run: final session, forwarded events, and the
number of iterations that executed. -/
structure LoopResult where
  session : Session
  forwarded : List Event
  iterations : Nat
deriving Repr, DecidableEq

/-- Modelled from the spec: the loop engine; `i` is the index of the
next iteration, the `Nat` argument is the remaining iteration budget. -/
def runLoopGo (body : Nat → State → List Event) (i : Nat) :
    Nat → Session → LoopResult
  | 0, s => ⟨s, [], 0⟩
  | n + 1, s =>
    let evs := body i s.state
    let s1 := evs.foldl appendEvent s
    if lastEscalates evs then ⟨s1, evs, 1⟩
    else
      let r := runLoopGo body (i + 1) n s1
      ⟨r.session, evs ++ r.forwarded, r.iterations + 1⟩

/-- Modelled from the spec: a Loop agent with a configured maximum
iteration count. -/
def runLoop (body : Nat → State → List Event) (maxIterations : Nat)
    (s : Session) : LoopResult :=
  runLoopGo body 0 maxIterations s

theorem runLoopGo_never_escalates (body : Nat → State → List Event)
    (n : Nat) : ∀ (i : Nat) (s : Session),
    (∀ j st, lastEscalates (body j st) = false) →
    (runLoopGo body i n s).iterations = n := by
  induction n with
  | zero => intro i s _; rfl
  | succ m ih =>
    intro i s h
    simp only [runLoopGo, h i s.state, if_false]
    exact congrArg Nat.succ (ih (i + 1) _ h)

theorem runLoopGo_escalates_at (body : Nat → State → List Event)
    (k : Nat) : ∀ (n i : Nat) (s : Session),
    (∀ j st, j < k → lastEscalates (body j st) = false) →
    (∀ st, lastEscalates (body k st) = true) →
    i ≤ k → k < i + n →
    (runLoopGo body i n s).iterations = k + 1 - i := by
  intro n
  induction n with
  | zero => intro i s _ _ hik hkn; omega
  | succ m ih =>
    intro i s h1 h2 hik hkn
    by_cases hi : i = k
    · subst hi
      simp [runLoopGo, h2 s.state]
    · have hlt : i < k := lt_of_le_of_ne hik hi
      have hrec := ih (i + 1) ((body i s.state).foldl appendEvent s) h1 h2
        (by omega) (by omega)
      simp [runLoopGo, h1 i s.state hlt, hrec]
      omega

/-- C4. A Loop terminates after iteration k when k is the first
iteration whose last event escalates and k occurs before the maximum
iteration count, and otherwise after exactly the configured maximum:
in particular, with the sub-agent never escalating the loop performs
exactly `maxIterations` iterations, and a Loop with maxIterations = 5
whose sub-agent escalates on its second iteration stops after exactly
two iterations, forwarding exactly those two iterations' events. -/
theorem loop_termination (body : Nat → State → List Event)
    (maxIterations k : Nat) (s : Session) :
    ((∀ j st, lastEscalates (body j st) = false) →
      (runLoop body maxIterations s).iterations = maxIterations) ∧
    ((∀ j st, j < k → lastEscalates (body j st) = false) →
      (∀ st, lastEscalates (body k st) = true) →
      k < maxIterations →
      (runLoop body maxIterations s).iterations = k + 1) ∧
    ((∀ st, lastEscalates (body 0 st) = false) →
      (∀ st, lastEscalates (body 1 st) = true) →
      (runLoop body 5 s).forwarded =
        body 0 s.state ++
          body 1 ((body 0 s.state).foldl appendEvent s).state ∧
      (runLoop body 5 s).iterations = 2) := by
  refine ⟨fun h => runLoopGo_never_escalates body maxIterations 0 s h,
    fun h1 h2 hk => ?_, fun h0 h1 => ?_⟩
  · have := runLoopGo_escalates_at body k maxIterations 0 s h1 h2
      (Nat.zero_le k) (by omega)
    simpa using this
  · constructor
    · show (runLoopGo body 0 5 s).forwarded = _
      simp [runLoopGo, h0 s.state,
        h1 ((body 0 s.state).foldl appendEvent s).state]
    · show (runLoopGo body 0 5 s).iterations = 2
      simp [runLoopGo, h0 s.state,
        h1 ((body 0 s.state).foldl appendEvent s).state]

/-- A loop body that escalates exactly on its second iteration. -/
def loopBodyExample : Nat → State → List Event :=
  fun j _ => [⟨"i", "loop", "b", "", [], j == 1⟩]

/-- Witness for C4: with maxIterations = 5 and escalation on the second
iteration, the loop performs exactly 2 iterations. -/
theorem loop_termination_witness :
    (runLoop loopBodyExample 5 Session.empty).iterations = 2 :=
  ((loop_termination loopBodyExample 5 1 Session.empty).2.2
    (fun _ => rfl) (fun _ => rfl)).2

/-! ## Tool-Invocation Loop (inside Leaf).

Modelled from the spec (§4.5): a two-state machine alternating
`AwaitingModel` and `ExecutingTools`.  The Model collaborator is
observed as the finite script of turns it returns, one per
`AwaitingModel` visit; a turn carries textual content and zero or more
tool calls.  Tool invocation returns a result or a failure. -/

structure ToolCall where
  id : String
  name : String
  args : String
deriving Repr, DecidableEq

structure Turn where
  content : String
  toolCalls : List ToolCall
deriving Repr, DecidableEq

/-- The events a Leaf yields: one per model turn, one per tool result.
A tool-result event carries the call's identifier and either the result
(`isError = false`) or an error payload (`isError = true`). -/
inductive LeafEvent where
  | modelTurn (t : Turn)
  | toolResult (callId : String) (isError : Bool) (payload : String)
deriving Repr, DecidableEq

def LeafEvent.isModelTurn : LeafEvent → Bool
  | .modelTurn _ => true
  | _ => false

def LeafEvent.isToolResult : LeafEvent → Bool
  | .toolResult _ _ _ => true
  | _ => false

/-- Modelled from the spec: the agent's tool set, mapping a call's tool
name and arguments to a result or a failure (resolution failure is a
failure as well). -/
def Tools := String → String → Except String String

/-- Modelled from the spec: invoking one tool call produces an ordinary
tool-result event; a failure is captured as an error payload on that
event, not propagated as a control-flow error. -/
def invokeTool (tools : Tools) (c : ToolCall) : LeafEvent :=
  match tools c.name c.args with
  | .ok r => .toolResult c.id false r
  | .error msg => .toolResult c.id true msg

/-- Modelled from the spec: the Tool-Invocation Loop.  In
`AwaitingModel` the next scripted turn is received and yielded; if it
contains no tool calls the loop terminates (the only terminal condition
at this layer).  Otherwise every tool call of the turn is resolved in
order, each yielding a tool-result event, and the loop transitions back
to `AwaitingModel`. -/
def runToolLoop (tools : Tools) : List Turn → List LeafEvent
  | [] => []
  | t :: rest =>
    if t.toolCalls.isEmpty then [.modelTurn t]
    else .modelTurn t :: (t.toolCalls.map (invokeTool tools) ++ runToolLoop tools rest)

def countModelTurns (es : List LeafEvent) : Nat :=
  (es.filter LeafEvent.isModelTurn).length

def countToolResults (es : List LeafEvent) : Nat :=
  (es.filter LeafEvent.isToolResult).length

theorem runToolLoop_stops_at_first_plain (tools : Tools) :
    ∀ (pre : List Turn) (t : Turn) (rest : List Turn),
    (∀ u ∈ pre, u.toolCalls ≠ []) → t.toolCalls = [] →
    runToolLoop tools (pre ++ t :: rest) = runToolLoop tools (pre ++ [t]) := by
  intro pre
  induction pre with
  | nil =>
    intro t rest _ ht
    simp [runToolLoop, ht]
  | cons u us ih =>
    intro t rest h ht
    have hu : u.toolCalls ≠ [] := h u (List.mem_cons_self u us)
    have hus : ∀ x ∈ us, x.toolCalls ≠ [] :=
      fun x hx => h x (List.mem_cons_of_mem u hx)
    simp [runToolLoop, List.isEmpty_iff, hu, ih t rest hus ht]

/-- C5. The Tool-Invocation Loop terminates exactly when a model turn
contains no tool calls: any scripted turns after the first call-free
turn are never requested, and a Model returning one tool call on each
of turns 1 and 2 and plain text on turn 3 yields exactly 3 model-turn
events and exactly 2 tool-result events. -/
theorem tool_loop_convergence (tools : Tools) (pre : List Turn)
    (t rest1 : Turn) (rest : List Turn) (t1 t2 t3 : Turn)
    (c1 c2 : ToolCall)
    (hpre : ∀ u ∈ pre, u.toolCalls ≠ []) (ht : t.toolCalls = [])
    (h1 : t1.toolCalls = [c1]) (h2 : t2.toolCalls = [c2])
    (h3 : t3.toolCalls = []) :
    runToolLoop tools (pre ++ t :: rest1 :: rest) =
      runToolLoop tools (pre ++ [t]) ∧
    countModelTurns (runToolLoop tools [t1, t2, t3]) = 3 ∧
    countToolResults (runToolLoop tools [t1, t2, t3]) = 2 := by
  refine ⟨runToolLoop_stops_at_first_plain tools pre t (rest1 :: rest) hpre ht,
    ?_, ?_⟩ <;>
  · simp [runToolLoop, h1, h2, h3, countModelTurns, countToolResults,
      invokeTool, LeafEvent.isModelTurn, LeafEvent.isToolResult]
    cases tools c1.name c1.args <;> cases tools c2.name c2.args <;>
      simp [LeafEvent.isModelTurn, LeafEvent.isToolResult, invokeTool]

/-- Witness for C5 at a concrete script and tool set. -/
theorem tool_loop_convergence_witness :
    countModelTurns (runToolLoop (fun _ _ => .ok "r")
      [⟨"m1", [⟨"1", "f", "a"⟩]⟩, ⟨"m2", [⟨"2", "f", "a"⟩]⟩, ⟨"m3", []⟩]) = 3 :=
  (tool_loop_convergence (fun _ _ => .ok "r") [] ⟨"m3", []⟩ ⟨"x", []⟩ []
    ⟨"m1", [⟨"1", "f", "a"⟩]⟩ ⟨"m2", [⟨"2", "f", "a"⟩]⟩ ⟨"m3", []⟩
    ⟨"1", "f", "a"⟩ ⟨"2", "f", "a"⟩
    (by intro u hu; cases hu) rfl rfl rfl rfl).2.1

/-- C6. A failing tool invocation is surfaced as an ordinary
tool-result event carrying the error payload, and the enclosing loop is
not aborted: it transitions back to AwaitingModel and keeps consuming
the remaining turns instead of terminating the sequence with an error. -/
theorem tool_failure_reported_as_data (tools : Tools) (t : Turn)
    (c : ToolCall) (rest : List Turn) (msg : String)
    (hc : t.toolCalls = [c]) (hfail : tools c.name c.args = .error msg) :
    runToolLoop tools (t :: rest) =
      .modelTurn t :: .toolResult c.id true msg :: runToolLoop tools rest ∧
    (LeafEvent.toolResult c.id true msg).isToolResult = true := by
  refine ⟨?_, rfl⟩
  simp [runToolLoop, hc, invokeTool, hfail]

/-- Witness for C6 at a concrete failing tool. -/
theorem tool_failure_reported_as_data_witness :
    runToolLoop (fun _ _ => .error "boom")
        [⟨"m1", [⟨"1", "f", "a"⟩]⟩, ⟨"m2", []⟩] =
      [.modelTurn ⟨"m1", [⟨"1", "f", "a"⟩]⟩,
       .toolResult "1" true "boom", .modelTurn ⟨"m2", []⟩] :=
  (tool_failure_reported_as_data (fun _ _ => .error "boom")
    ⟨"m1", [⟨"1", "f", "a"⟩]⟩ ⟨"1", "f", "a"⟩ [⟨"m2", []⟩] "boom"
    rfl rfl).1

/-! ## Invocation Context and Parallel agent.

Modelled from the spec (§4.2, §4.3 Parallel): a Parallel agent derives
one child context per sub-agent with a distinct branch segment, runs the
sub-agents' event sequences concurrently, forwards each event in
arrival order and appends it to the session (appends serialize).  The
nondeterministic arrival order is modelled by a boolean schedule that
picks which branch yields the next event. -/

structure InvocationContext where
  invocationId : String
  branch : String
deriving Repr, DecidableEq

/-- Modelled from the spec: `derive(parent, branchSegment)`:
child.branch = parent.branch + "/" + branchSegment (or just
branchSegment when the parent branch is empty); the invocation id is
shared. -/
def derive (parent : InvocationContext) (segment : String) :
    InvocationContext :=
  { parent with
    branch := if parent.branch = "" then segment
              else parent.branch ++ "/" ++ segment }

/-- One interleaving of the two branches' event sequences: each `true`
takes the next event of the first branch, each `false` of the second;
an exhausted schedule or branch drains the remainder in order. -/
def interleave : List Bool → List Event → List Event → List Event
  | [], as, bs => as ++ bs
  | true :: sch, as, bs =>
    match as with
    | [] => bs
    | a :: rest => a :: interleave sch rest bs
  | false :: sch, as, bs =>
    match bs with
    | [] => as
    | b :: rest => b :: interleave sch as rest

/-- Modelled from the spec: a Parallel run over a given arrival
schedule: forward the interleaved events and append each to the shared
session in arrival order. -/
def runParallel (s : Session) (evA evB : List Event) (sch : List Bool) :
    Session × List Event :=
  let forwarded := interleave sch evA evB
  (forwarded.foldl appendEvent s, forwarded)

theorem interleave_perm (sch : List Bool) (as bs : List Event) :
    (interleave sch as bs).Perm (as ++ bs) := by
  induction sch generalizing as bs with
  | nil => exact List.Perm.refl _
  | cons c sch ih =>
    cases c with
    | true =>
      cases as with
      | nil => simp [interleave]
      | cons a rest =>
        show (a :: interleave sch rest bs).Perm _
        exact (ih rest bs).cons a
    | false =>
      cases bs with
      | nil => simp [interleave]
      | cons b rest =>
        show (b :: interleave sch as rest).Perm _
        exact ((ih as rest).cons b).trans List.perm_middle.symm

/-- An event list none of whose events writes `k` leaves `lastWrite`
at `none`. -/
theorem lastWrite_eq_none (es : List Event) (k : Key)
    (h : ∀ e ∈ es, deltaLast e.stateDelta k = none) :
    lastWrite es k = none := by
  induction es with
  | nil => rfl
  | cons e rest ih =>
    have := ih (fun x hx => h x (List.mem_cons_of_mem e hx))
    simp [lastWrite, this, h e (List.mem_cons_self e rest)]

theorem lastWrite_append (l₁ l₂ : List Event) (k : Key) :
    lastWrite (l₁ ++ l₂) k =
      match lastWrite l₂ k with
      | some v => some v
      | none => lastWrite l₁ k := by
  induction l₁ with
  | nil =>
    show lastWrite l₂ k = _
    cases h : lastWrite l₂ k <;> simp [lastWrite]
  | cons e rest ih =>
    show (match lastWrite (rest ++ l₂) k with
          | some v => some v
          | none => deltaLast e.stateDelta k) = _
    rw [ih]
    cases h : lastWrite l₂ k <;> simp [lastWrite]

/-- Interleaving with a branch that never writes `k` does not change the
last write to `k`. -/
theorem lastWrite_interleave_left (sch : List Bool) (as bs : List Event)
    (k : Key) (h : ∀ e ∈ bs, deltaLast e.stateDelta k = none) :
    lastWrite (interleave sch as bs) k = lastWrite as k := by
  induction sch generalizing as bs with
  | nil =>
    show lastWrite (as ++ bs) k = _
    rw [lastWrite_append, lastWrite_eq_none bs k h]
  | cons c sch ih =>
    cases c with
    | true =>
      cases as with
      | nil =>
        show lastWrite bs k = _
        rw [lastWrite_eq_none bs k h]; rfl
      | cons a rest =>
        show lastWrite (a :: interleave sch rest bs) k = _
        simp only [lastWrite, ih rest bs h]
    | false =>
      cases bs with
      | nil => rfl
      | cons b rest =>
        show lastWrite (b :: interleave sch as rest) k = _
        have hb := h b (List.mem_cons_self b rest)
        have hrest : ∀ e ∈ rest, deltaLast e.stateDelta k = none :=
          fun x hx => h x (List.mem_cons_of_mem b hx)
        simp only [lastWrite, ih as rest hrest, hb]
        cases h2 : lastWrite as k <;> simp

/-- Symmetric form for the second branch. -/
theorem lastWrite_interleave_right (sch : List Bool) (as bs : List Event)
    (k : Key) (h : ∀ e ∈ as, deltaLast e.stateDelta k = none) :
    lastWrite (interleave sch as bs) k = lastWrite bs k := by
  induction sch generalizing as bs with
  | nil =>
    show lastWrite (as ++ bs) k = _
    rw [lastWrite_append]
    cases hbs : lastWrite bs k <;>
      simp [lastWrite_eq_none as k h]
  | cons c sch ih =>
    cases c with
    | true =>
      cases as with
      | nil => rfl
      | cons a rest =>
        show lastWrite (a :: interleave sch rest bs) k = _
        have ha := h a (List.mem_cons_self a rest)
        have hrest : ∀ e ∈ rest, deltaLast e.stateDelta k = none :=
          fun x hx => h x (List.mem_cons_of_mem a hx)
        simp only [lastWrite, ih rest bs hrest, ha]
        cases h2 : lastWrite bs k <;> simp
    | false =>
      cases bs with
      | nil =>
        show lastWrite as k = lastWrite [] k
        rw [lastWrite_eq_none as k h]; rfl
      | cons b rest =>
        show lastWrite (b :: interleave sch as rest) k = _
        simp only [lastWrite, ih as rest h]

theorem string_append_segment_injective (p a b : String) (hab : a ≠ b) :
    p ++ "/" ++ a ≠ p ++ "/" ++ b := by
  intro h
  apply hab
  have hd : (p ++ "/" ++ a).data = (p ++ "/" ++ b).data := by rw [h]
  simp only [String.data_append] at hd
  have h2 : a.data = b.data := List.append_cancel_left hd
  cases a
  cases b
  exact congrArg String.mk h2

/-- C7. For a Parallel agent with sub-agents [A, B] writing distinct
keys: under every interleaving of the two branches, the final session
state contains both keys with the value of each branch's last write,
every event from every branch is forwarded exactly once (the forwarded
sequence is a permutation of the two branches' sequences), and the two
derived child contexts carry distinct branch segments. -/
theorem parallel_isolation_merge (s : Session) (evA evB : List Event)
    (sch : List Bool) (kA kB : Key) (vA vB : Value)
    (parent : InvocationContext) (nameA nameB : String)
    (hBnotA : ∀ e ∈ evB, deltaLast e.stateDelta kA = none)
    (hAnotB : ∀ e ∈ evA, deltaLast e.stateDelta kB = none)
    (hA : lastWrite evA kA = some vA) (hB : lastWrite evB kB = some vB)
    (hnames : nameA ≠ nameB) :
    getKey (runParallel s evA evB sch).1.state kA = some vA ∧
    getKey (runParallel s evA evB sch).1.state kB = some vB ∧
    (runParallel s evA evB sch).2.Perm (evA ++ evB) ∧
    (derive parent nameA).branch ≠ (derive parent nameB).branch := by
  refine ⟨?_, ?_, interleave_perm sch evA evB, ?_⟩
  · show getKey ((interleave sch evA evB).foldl appendEvent s).state kA = _
    rw [foldl_appendEvent_state, getKey_foldEvents,
      lastWrite_interleave_left sch evA evB kA hBnotA, hA]
  · show getKey ((interleave sch evA evB).foldl appendEvent s).state kB = _
    rw [foldl_appendEvent_state, getKey_foldEvents,
      lastWrite_interleave_right sch evA evB kB hAnotB, hB]
  · simp only [derive]
    by_cases hp : parent.branch = "" <;>
      simp [hp, hnames, string_append_segment_injective _ _ _ hnames]

/-- Witness for C7 at concrete branches, keys and schedule. -/
theorem parallel_isolation_merge_witness :
    getKey (runParallel Session.empty
        [⟨"i", "A", "p/A", "", [("a", "1")], false⟩]
        [⟨"i", "B", "p/B", "", [("b", "2")], false⟩]
        [false, true]).1.state "a" = some "1" :=
  (parallel_isolation_merge Session.empty
    [⟨"i", "A", "p/A", "", [("a", "1")], false⟩]
    [⟨"i", "B", "p/B", "", [("b", "2")], false⟩]
    [false, true] "a" "b" "1" "2" ⟨"i", "p"⟩ "A" "B"
    (by intro e he; simp at he; subst he; rfl)
    (by intro e he; simp at he; subst he; rfl)
    rfl rfl (by decide)).1

/-! ## The `check_prime` sample tool.

Embeds `checkPrimeTool.execute` from the sequential-agent sample.  The
tool's numbers are modelled as exact integers, and the loop bound
`Math.floor(number ** 0.5) + 1` as `Nat.sqrt n + 1`: the inner loop
tries divisors `i` with `2 <= i <= Nat.sqrt n + 1`. -/

/-- The per-number primality loop of `checkPrimeTool.execute`: a number
`<= 1` is skipped, `2` is prime, and otherwise the number is prime when
no `i` with `2 <= i <= floor(sqrt n) + 1` divides it. -/
def checkPrimeIsPrime (n : Int) : Bool :=
  if n ≤ 1 then false
  else if n = 2 then true
  else (List.range' 2 (Nat.sqrt n.toNat)).all fun i => n % (i : Int) != 0

/-- One `Set.add`: insertion-ordered, duplicates ignored. -/
def addUnique (l : List Int) (x : Int) : List Int :=
  if x ∈ l then l else l ++ [x]

/-- The `primes` set accumulated by `checkPrimeTool.execute`, in
insertion order. -/
def primesOf (numbers : List Int) : List Int :=
  numbers.foldl (fun acc n => if checkPrimeIsPrime n then addUnique acc n else acc) []

/-- `[...primes].join(', ')`. -/
def joinComma : List Int → String
  | [] => ""
  | [n] => toString n
  | n :: rest => toString n ++ ", " ++ joinComma rest

/-- `checkPrimeTool.execute` of the sequential-agent sample. -/
def checkPrimeExecute (numbers : List Int) : String :=
  let primes := primesOf numbers
  if primes.length = 0 then "No prime numbers found."
  else joinComma primes ++ " are prime numbers."

/-- The claim's notion of prime: an integer greater than 1 with no
divisor between 2 and its square root. -/
def claimPrime (n : Int) : Prop :=
  1 < n ∧ ∀ d : Int, 2 ≤ d → d * d ≤ n → ¬ d ∣ n

theorem claimPrime_iff_natPrime (n : Int) :
    claimPrime n ↔ 1 < n ∧ Nat.Prime n.toNat := by
  constructor
  · rintro ⟨h1, h2⟩
    refine ⟨h1, ?_⟩
    rw [Nat.prime_def_le_sqrt]
    refine ⟨by omega, fun m hm hms hdvd => ?_⟩
    have hmm : m * m ≤ n.toNat := Nat.le_sqrt.mp hms
    refine h2 (m : Int) (by exact_mod_cast hm) ?_ ?_
    · have hn : ((n.toNat : Int)) = n := Int.toNat_of_nonneg (by omega)
      calc (m : Int) * m = ((m * m : Nat) : Int) := by push_cast; ring
        _ ≤ ((n.toNat : Nat) : Int) := by exact_mod_cast hmm
        _ = n := hn
    · have hn : ((n.toNat : Int)) = n := Int.toNat_of_nonneg (by omega)
      rw [← hn]
      exact_mod_cast hdvd
  · rintro ⟨h1, hp⟩
    refine ⟨h1, fun d hd hdd hdvd => ?_⟩
    have hn : ((n.toNat : Int)) = n := Int.toNat_of_nonneg (by omega)
    have hdpos : 0 < d := by omega
    have hd2 : 2 ≤ d.toNat := by omega
    have hdvdNat : d.toNat ∣ n.toNat := by
      rw [← Int.natCast_dvd_natCast, Int.toNat_of_nonneg (by omega : (0:Int) ≤ d), hn]
      exact hdvd
    have hsq : d.toNat ≤ Nat.sqrt n.toNat := by
      rw [Nat.le_sqrt]
      have : (d.toNat : Int) * d.toNat ≤ (n.toNat : Int) := by
        rw [Int.toNat_of_nonneg (by omega : (0:Int) ≤ d), hn]
        exact hdd
      exact_mod_cast this
    exact (Nat.prime_def_le_sqrt.mp hp).2 d.toNat hd2 hsq hdvdNat

theorem sqrt_add_one_lt (m : Nat) (hm : 3 ≤ m) : Nat.sqrt m + 1 < m := by
  by_contra hcon
  have hms : m - 1 ≤ Nat.sqrt m := by omega
  have := Nat.le_sqrt.mp hms
  have h2 : 2 * (m - 1) ≤ (m - 1) * (m - 1) :=
    Nat.mul_le_mul_right (m - 1) (by omega)
  omega

/-- The per-number loop agrees with the claim's notion of prime. -/
theorem checkPrimeIsPrime_iff (n : Int) :
    checkPrimeIsPrime n = true ↔ claimPrime n := by
  rw [claimPrime_iff_natPrime]
  by_cases h1 : n ≤ 1
  · simp only [checkPrimeIsPrime, if_pos h1]
    constructor
    · intro h; cases h
    · rintro ⟨hlt, _⟩; omega
  · by_cases h2 : n = 2
    · subst h2
      simp [checkPrimeIsPrime, Nat.prime_two]
    · have h3 : 3 ≤ n := by omega
      have hn : ((n.toNat : Int)) = n := Int.toNat_of_nonneg (by omega)
      have hm3 : 3 ≤ n.toNat := by omega
      simp only [checkPrimeIsPrime, if_neg h1, if_neg h2, List.all_eq_true]
      constructor
      · intro hall
        refine ⟨by omega, ?_⟩
        rw [Nat.prime_def_le_sqrt]
        refine ⟨by omega, fun m hm hms hdvd => ?_⟩
        have hmem : m ∈ List.range' 2 (Nat.sqrt n.toNat) := by
          rw [List.mem_range'_1]
          exact ⟨hm, by omega⟩
        have := hall m hmem
        rw [bne_iff_ne] at this
        apply this
        rw [← Int.emod_emod_of_dvd]
        · rw [Int.emod_emod_of_dvd _ dvd_rfl]
          rw [← Int.dvd_iff_emod_eq_zero]
          rw [← hn]
          exact_mod_cast hdvd
        · exact dvd_rfl
      · rintro ⟨_, hp⟩ i hi
        rw [List.mem_range'_1] at hi
        rw [bne_iff_ne]
        intro hmod
        have hidvd : (i : Int) ∣ n := Int.dvd_of_emod_eq_zero hmod
        have hidvdNat : i ∣ n.toNat := by
          rw [← Int.natCast_dvd_natCast, hn]
          exact hidvd
        rcases (Nat.Prime.eq_one_or_self_of_dvd hp i hidvdNat) with h | h
        · omega
        · have := sqrt_add_one_lt n.toNat hm3
          omega

theorem mem_addUnique (l : List Int) (x y : Int) :
    y ∈ addUnique l x ↔ y ∈ l ∨ y = x := by
  by_cases h : x ∈ l
  · simp only [addUnique, if_pos h]
    constructor
    · exact Or.inl
    · rintro (hy | rfl)
      · exact hy
      · exact h
  · simp [addUnique, if_neg h]

theorem nodup_addUnique (l : List Int) (x : Int) (h : l.Nodup) :
    (addUnique l x).Nodup := by
  by_cases hx : x ∈ l
  · simpa [addUnique, hx]
  · simp [addUnique, hx, List.nodup_append, h]

theorem mem_primesOf_aux (ns : List Int) :
    ∀ (acc : List Int) (x : Int),
    x ∈ ns.foldl (fun acc n => if checkPrimeIsPrime n then addUnique acc n else acc) acc ↔
      x ∈ acc ∨ (x ∈ ns ∧ checkPrimeIsPrime x = true) := by
  induction ns with
  | nil => intro acc x; simp
  | cons n rest ih =>
    intro acc x
    show x ∈ rest.foldl _ (if checkPrimeIsPrime n then addUnique acc n else acc) ↔ _
    rw [ih]
    by_cases hc : checkPrimeIsPrime n = true
    · simp only [if_pos hc, mem_addUnique]
      constructor
      · rintro ((hx | rfl) | ⟨hmem, hpr⟩)
        · exact Or.inl hx
        · exact Or.inr ⟨List.mem_cons_self _ _, hc⟩
        · exact Or.inr ⟨List.mem_cons_of_mem n hmem, hpr⟩
      · rintro (hx | ⟨hmem, hpr⟩)
        · exact Or.inl (Or.inl hx)
        · rcases List.mem_cons.mp hmem with rfl | hmem
          · exact Or.inl (Or.inr rfl)
          · exact Or.inr ⟨hmem, hpr⟩
    · simp only [if_neg hc]
      constructor
      · rintro (hx | ⟨hmem, hpr⟩)
        · exact Or.inl hx
        · exact Or.inr ⟨List.mem_cons_of_mem n hmem, hpr⟩
      · rintro (hx | ⟨hmem, hpr⟩)
        · exact Or.inl hx
        · rcases List.mem_cons.mp hmem with rfl | hmem
          · exact absurd hpr hc
          · exact Or.inr ⟨hmem, hpr⟩

theorem mem_primesOf (ns : List Int) (x : Int) :
    x ∈ primesOf ns ↔ x ∈ ns ∧ checkPrimeIsPrime x = true := by
  rw [primesOf, mem_primesOf_aux]
  simp

theorem nodup_primesOf (ns : List Int) : (primesOf ns).Nodup := by
  suffices h : ∀ acc : List Int, acc.Nodup →
      (ns.foldl (fun acc n => if checkPrimeIsPrime n then addUnique acc n else acc) acc).Nodup by
    exact h [] List.nodup_nil
  induction ns with
  | nil => intro acc hacc; exact hacc
  | cons n rest ih =>
    intro acc hacc
    show (rest.foldl _ (if checkPrimeIsPrime n then addUnique acc n else acc)).Nodup
    by_cases hc : checkPrimeIsPrime n = true
    · rw [if_pos hc]; exact ih _ (nodup_addUnique acc n hacc)
    · rw [if_neg hc]; exact ih _ hacc

theorem claimPrime_seven : claimPrime 7 := by
  refine ⟨by norm_num, fun d hd hdd => ?_⟩
  have hd3 : d < 3 := by nlinarith
  have hd2 : d = 2 := by omega
  subst hd2
  rintro ⟨c, hc⟩
  omega

theorem suffix_ne_no_primes (a : String) :
    a ++ " are prime numbers." ≠ "No prime numbers found." := by
  intro h
  have hd : (a ++ " are prime numbers.").data = "No prime numbers found.".data := by
    rw [h]
  rw [String.data_append] at hd
  have hsuf : " are prime numbers.".data <:+ "No prime numbers found.".data :=
    ⟨a.data, hd⟩
  revert hsuf
  decide

/-- C8. `checkPrimeTool.execute` returns 'No prime numbers found.' iff
no element of `numbers` is prime (an integer > 1 with no divisor
between 2 and its square root); otherwise it returns a message listing
exactly the distinct prime elements of the list, each once. -/
theorem check_prime_correct (ns : List Int) :
    (checkPrimeExecute ns = "No prime numbers found." ↔
      ∀ x ∈ ns, ¬ claimPrime x) ∧
    ((∃ x ∈ ns, claimPrime x) →
      checkPrimeExecute ns = joinComma (primesOf ns) ++ " are prime numbers." ∧
      (∀ x, x ∈ primesOf ns ↔ x ∈ ns ∧ claimPrime x) ∧
      (primesOf ns).Nodup) := by
  have hmem : ∀ x, x ∈ primesOf ns ↔ x ∈ ns ∧ claimPrime x := by
    intro x
    rw [mem_primesOf, checkPrimeIsPrime_iff]
  have hempty : primesOf ns = [] ↔ ∀ x ∈ ns, ¬ claimPrime x := by
    constructor
    · intro h x hx hpr
      have : x ∈ primesOf ns := (hmem x).mpr ⟨hx, hpr⟩
      rw [h] at this
      cases this
    · intro h
      by_contra hne
      rcases List.exists_mem_of_ne_nil _ hne with ⟨x, hx⟩
      rcases (hmem x).mp hx with ⟨hxns, hxpr⟩
      exact h x hxns hxpr
  constructor
  · constructor
    · intro h
      rw [← hempty]
      by_contra hne
      have hlen : (primesOf ns).length ≠ 0 := fun h0 => hne (List.eq_nil_of_length_eq_zero h0)
      rw [checkPrimeExecute] at h
      simp only [if_neg hlen] at h
      exact suffix_ne_no_primes _ h
    · intro h
      have : primesOf ns = [] := hempty.mpr h
      simp [checkPrimeExecute, this]
  · intro hex
    have hne : primesOf ns ≠ [] := by
      rcases hex with ⟨x, hx, hpr⟩
      intro h0
      exact (hempty.mp h0) x hx hpr
    have hlen : (primesOf ns).length ≠ 0 := fun h0 => hne (List.eq_nil_of_length_eq_zero h0)
    refine ⟨?_, hmem, nodup_primesOf ns⟩
    show (if (primesOf ns).length = 0 then "No prime numbers found."
          else joinComma (primesOf ns) ++ " are prime numbers.") = _
    rw [if_neg hlen]

/-- Witness for C8: on [4, 7] the tool lists exactly the prime 7. -/
theorem check_prime_correct_witness :
    checkPrimeExecute [4, 7] = joinComma (primesOf [4, 7]) ++ " are prime numbers." :=
  ((check_prime_correct [4, 7]).2 ⟨7, by decide, claimPrime_seven⟩).1

/-! ## The two revisions of `Gemini.generateContentAsync`.

Both versions of the streaming accumulator loop are embedded as folds
over the list of raw stream chunks.  `createLlmResponse` is opaque to
the loop, so a chunk carries the `LlmResponse` it produces together
with the raw response's finish reason.  JavaScript truthiness of an
optional string (`undefined` and `""` are falsy) is modelled by
`sTruthy`; a `functionCall` object is always truthy when present. -/

namespace Gemini

structure Part where
  text : Option String := none
  thought : Bool := false
  thoughtSignature : Option String := none
  functionCall : Option String := none
  inlineData : Bool := false
deriving Repr, DecidableEq, Inhabited

structure Content where
  role : String
  parts : List Part
deriving Repr, DecidableEq, Inhabited

/-- The yielded response value; `partialFlag` models the response's
`partial` marker. -/
structure LlmResponse where
  content : Option Content := none
  usageMetadata : Option Nat := none
  partialFlag : Option Bool := none
deriving Repr, DecidableEq, Inhabited

inductive FinishReason where
  | stop
  | other
deriving Repr, DecidableEq, BEq

/-- One element of the raw response stream: the `LlmResponse` that
`createLlmResponse` builds from it, plus the raw candidate's finish
reason. -/
structure Chunk where
  resp : LlmResponse
  finishReason : Option FinishReason := none
deriving Repr, DecidableEq

/-- JavaScript truthiness of an optional string. -/
def sTruthy : Option String → Bool
  | some s => s != ""
  | none => false

def firstPartOf (r : LlmResponse) : Option Part :=
  r.content.bind fun ct => ct.parts.head?

def fpText (fp : Option Part) : String := (fp.bind Part.text).getD ""

def fpTextTruthy (fp : Option Part) : Bool := sTruthy (fp.bind Part.text)

def fpThought (fp : Option Part) : Bool := (fp.map Part.thought).getD false

def fpSig (fp : Option Part) : Option String := fp.bind Part.thoughtSignature

def fpInline (fp : Option Part) : Bool := (fp.map Part.inlineData).getD false

/-- `llmResponse.content?.parts?.some((part) => part.functionCall)`. -/
def hasFunctionCallsOf (r : LlmResponse) : Bool :=
  match r.content with
  | some ct => ct.parts.any fun p => p.functionCall.isSome
  | none => false

/-- `createPartFromText`. -/
def textPart (s : String) : Part := { text := some s }

/-- `{text: thoughtText, thought: true}` with the signature attached
when the accumulated signature is truthy. -/
def mkThoughtPart (tt : String) (sig : Option String) : Part :=
  { text := some tt, thought := true,
    thoughtSignature := if sTruthy sig then sig else none }

/-- The parts of a flush: the accumulated thought part (if any
thought text) then the accumulated text part (if any text). -/
def flushParts (tt tx : String) (sig : Option String) : List Part :=
  (if tt != "" then [mkThoughtPart tt sig] else []) ++
    (if tx != "" then [textPart tx] else [])

def flushResponse (tt tx : String) (sig : Option String)
    (usage : Option Nat) : LlmResponse :=
  { content := some { role := "model", parts := flushParts tt tx sig },
    usageMetadata := usage }

/-- The original streaming loop of `Gemini.generateContentAsync`
(stream = true), as a fold over the chunk list.  The arguments are the
loop state: accumulated thought text, accumulated thought signature,
accumulated text, last usage metadata and last finish reason. -/
def genStreamOrig : String → Option String → String → Option Nat →
    Option FinishReason → List Chunk → List LlmResponse
  | tt, sig, tx, usage, lastFR, [] =>
    if (tx != "" || tt != "") && lastFR == some FinishReason.stop then
      [flushResponse tt tx sig usage]
    else []
  | tt, sig, tx, _usage, _lastFR, c :: rest =>
    let r := c.resp
    let firstPart := firstPartOf r
    if fpTextTruthy firstPart then
      let isTh := fpThought firstPart
      let tt1 := if isTh then tt ++ fpText firstPart else tt
      let sig1 := if isTh && sTruthy (fpSig firstPart) then fpSig firstPart else sig
      let tx1 := if isTh then tx else tx ++ fpText firstPart
      { r with partialFlag := some true } ::
        genStreamOrig tt1 sig1 tx1 r.usageMetadata c.finishReason rest
    else if (tt != "" || tx != "") && (firstPart.isNone || !fpInline firstPart) then
      flushResponse tt tx sig r.usageMetadata :: r ::
        genStreamOrig "" none "" r.usageMetadata c.finishReason rest
    else
      r :: genStreamOrig tt sig tx r.usageMetadata c.finishReason rest

/-- The original non-streaming path: yield `createLlmResponse(response)`. -/
def genNonStreamOrig (r : LlmResponse) : List LlmResponse := [r]

/-! The revised version (the one that adds `cachedThoughtSignature`
handling).  Its additional part-rewriting passes are embedded below. -/

/-- Revised version, signature extraction pass: the first part whose
`thoughtSignature` is truthy (only consulted when the local signature
is falsy). -/
def extractSigFound (r : LlmResponse) : Option Part :=
  match r.content with
  | some ct => ct.parts.find? fun p => sTruthy p.thoughtSignature
  | none => none

/-- Revised version: set the signature on the first function-call part
unconditionally (used when no part has an existing truthy signature). -/
def setSigOnFirstFC : List Part → Option String → List Part
  | [], _ => []
  | p :: ps, sig =>
    if p.functionCall.isSome then { p with thoughtSignature := sig } :: ps
    else p :: setSigOnFirstFC ps sig

/-- Revised version: set the signature on the first function-call part
whose own signature is falsy. -/
def setSigOnFirstFCNoSig : List Part → Option String → List Part
  | [], _ => []
  | p :: ps, sig =>
    if p.functionCall.isSome && !(sTruthy p.thoughtSignature) then
      { p with thoughtSignature := sig } :: ps
    else p :: setSigOnFirstFCNoSig ps sig

/-- Revised version: on the first function-call part, set the signature
only when that part's own signature is falsy; later parts untouched. -/
def applySigFirstFCIfNone : List Part → Option String → List Part
  | [], _ => []
  | p :: ps, sig =>
    if p.functionCall.isSome then
      (if sTruthy p.thoughtSignature then p
       else { p with thoughtSignature := sig }) :: ps
    else p :: applySigFirstFCIfNone ps sig

/-- Revised version, the post-branch block run before every yield: when
the gate holds and no part has a truthy signature, apply the local then
the cached signature to the first function-call part. -/
def applyStep8 (g3 hasFC : Bool) (sig cached : Option String)
    (r : LlmResponse) : LlmResponse :=
  if g3 && hasFC && r.content.isSome then
    match r.content with
    | some ct =>
      let parts1 :=
        if !(ct.parts.any fun p => sTruthy p.thoughtSignature) && sTruthy sig then
          setSigOnFirstFC ct.parts sig
        else ct.parts
      let parts2 :=
        if (parts1.filter fun p => sTruthy p.thoughtSignature).length == 0 then
          let sigToUse := if sTruthy sig then sig else cached
          if sTruthy sigToUse then setSigOnFirstFCNoSig parts1 sigToUse
          else parts1
        else parts1
      { r with content := some { ct with parts := parts2 } }
    | none => r
  else r

/-- Revised version, merge branch: prepend the accumulated thought/text
parts to the function-call response, placing the signature on the first
function-call part when there is no thought text. -/
def mergeThought (r : LlmResponse) (tt tx : String) (sig : Option String) :
    LlmResponse :=
  match r.content with
  | some ct =>
    let partsA :=
      if tt == "" && sTruthy sig then applySigFirstFCIfNone ct.parts sig
      else ct.parts
    { r with content := some { ct with parts := flushParts tt tx sig ++ partsA } }
  | none => r

/-- The revised streaming loop of `Gemini.generateContentAsync`
(stream = true): same state as the original plus the class-level
`cachedThoughtSignature`. -/
def genStreamRev (g3 : Bool) : Option String → String → Option String →
    String → Option Nat → Option FinishReason → List Chunk → List LlmResponse
  | _cached, tt, sig, tx, usage, lastFR, [] =>
    if (tx != "" || tt != "") && lastFR == some FinishReason.stop then
      [flushResponse tt tx sig usage]
    else []
  | cached, tt, sig, tx, _usage, _lastFR, c :: rest =>
    let r := c.resp
    let firstPart := firstPartOf r
    let hasFC := hasFunctionCallsOf r
    let es :=
      if g3 && r.content.isSome && !(sTruthy sig) then
        match extractSigFound r with
        | some p => (p.thoughtSignature, p.thoughtSignature)
        | none => (sig, cached)
      else (sig, cached)
    let sigA := es.1
    let cachedA := es.2
    if fpTextTruthy firstPart then
      let isTh := fpThought firstPart
      let tt1 := if isTh then tt ++ fpText firstPart else tt
      let sig1 := if isTh && sTruthy (fpSig firstPart) then fpSig firstPart else sigA
      let cached1 := if isTh && sTruthy (fpSig firstPart) then fpSig firstPart else cachedA
      let tx1 := if isTh then tx else tx ++ fpText firstPart
      let tt2 := if g3 && hasFC then "" else tt1
      let sig2 := if g3 && hasFC then none else sig1
      let tx2 := if g3 && hasFC then "" else tx1
      applyStep8 g3 hasFC sig2 cached1 { r with partialFlag := some true } ::
        genStreamRev g3 cached1 tt2 sig2 tx2 r.usageMetadata c.finishReason rest
    else if (tt != "" || tx != "") && (firstPart.isNone || !fpInline firstPart) then
      if g3 && hasFC && r.content.isSome then
        applyStep8 g3 hasFC none cachedA (mergeThought r tt tx sigA) ::
          genStreamRev g3 cachedA "" none "" r.usageMetadata c.finishReason rest
      else
        flushResponse tt tx sigA r.usageMetadata ::
          applyStep8 g3 hasFC none cachedA r ::
          genStreamRev g3 cachedA "" none "" r.usageMetadata c.finishReason rest
    else
      applyStep8 g3 hasFC sigA cachedA r ::
        genStreamRev g3 cachedA tt sigA tx r.usageMetadata c.finishReason rest

/-- The revised non-streaming path: the gated Gemini-3 signature fixup,
then yield; returns the yielded responses and the updated cache. -/
def genNonStreamRev (g3 : Bool) (cached : Option String)
    (r : LlmResponse) : List LlmResponse × Option String :=
  if g3 && r.content.isSome then
    match r.content with
    | some ct =>
      let found := ct.parts.find? fun p => sTruthy p.thoughtSignature
      let thoughtSig := match found with
        | some p => p.thoughtSignature
        | none => none
      let cached1 := match found with
        | some p => p.thoughtSignature
        | none => cached
      let hasThoughtPartWithSig := match found with
        | some p => p.thought
        | none => false
      let parts1 :=
        if sTruthy thoughtSig && !hasThoughtPartWithSig then
          applySigFirstFCIfNone ct.parts thoughtSig
        else ct.parts
      let hasFC := parts1.any fun p => p.functionCall.isSome
      let parts2 :=
        if hasFC then
          if (parts1.filter fun p => sTruthy p.thoughtSignature).length == 0
              && sTruthy cached1 then
            setSigOnFirstFCNoSig parts1 cached1
          else parts1
        else parts1
      ([{ r with content := some { ct with parts := parts2 } }], cached1)
    | none => ([r], cached)
  else ([r], cached)

theorem applyStep8_false (hasFC : Bool) (sig cached : Option String)
    (r : LlmResponse) : applyStep8 false hasFC sig cached r = r := by
  simp [applyStep8]

theorem genStreamRev_false : ∀ (chunks : List Chunk)
    (cached : Option String) (tt : String) (sig : Option String)
    (tx : String) (usage : Option Nat) (lastFR : Option FinishReason),
    genStreamRev false cached tt sig tx usage lastFR chunks =
      genStreamOrig tt sig tx usage lastFR chunks := by
  intro chunks
  induction chunks with
  | nil => intro cached tt sig tx usage lastFR; rfl
  | cons c rest ih =>
    intro cached tt sig tx usage lastFR
    simp only [genStreamRev, genStreamOrig, Bool.false_and, Bool.and_false,
      Bool.false_eq_true, if_false, applyStep8_false]
    by_cases h1 : fpTextTruthy (firstPartOf c.resp) = true
    · simp [h1, ih]
    · by_cases h2 : ((tt != "" || tx != "") &&
          ((firstPartOf c.resp).isNone || !fpInline (firstPartOf c.resp))) = true
      · simp [h1, h2, ih]
      · simp [h1, h2, ih]

/-- C9. For every model for which the Gemini-3-preview detection is
false, the revised `Gemini.generateContentAsync` (the version adding
`cachedThoughtSignature` handling) yields exactly the same sequence of
`LlmResponse` values as the original version, for every chunk stream
and initial cache in streaming mode, and for every response in
non-streaming mode. -/
theorem revised_refines_original_non_gemini3 (g3 : Bool)
    (h : g3 = false) (cached : Option String) (chunks : List Chunk)
    (r : LlmResponse) :
    genStreamRev g3 cached "" none "" none none chunks =
      genStreamOrig "" none "" none none chunks ∧
    (genNonStreamRev g3 cached r).1 = genNonStreamOrig r := by
  subst h
  exact ⟨genStreamRev_false chunks cached "" none "" none none,
    by simp [genNonStreamRev, genNonStreamOrig]⟩

/-- Witness for C9 at a concrete non-Gemini-3 stream. -/
theorem revised_refines_original_non_gemini3_witness :
    genStreamRev false (some "sig") "" none "" none none
        [⟨{ content := some ⟨"model", [{ text := some "hello" }]⟩ },
          some FinishReason.stop⟩] =
      genStreamOrig "" none "" none none
        [⟨{ content := some ⟨"model", [{ text := some "hello" }]⟩ },
          some FinishReason.stop⟩] :=
  (revised_refines_original_non_gemini3 false rfl (some "sig")
    [⟨{ content := some ⟨"model", [{ text := some "hello" }]⟩ },
      some FinishReason.stop⟩] {}).1

end Gemini

/-! ## The agent graph builder.

Embeds `buildGraph`/`buildCluster`/`drawNode`/`drawEdge` from
`agent_graph.ts`.  The graphviz output is modelled as the flat lists of
nodes, clusters and edges the functions emit; a thrown `TypeError` is
an `Except.error`.  The two highlight paths of `drawNode` build the
same cluster, so the cluster path is taken whenever the agent is a
Sequential/Loop/Parallel agent, and the highlight state only changes
the emitted node's style. -/

namespace GraphViz

inductive GKind where
  | llm
  | sequential
  | parallel
  | loop
deriving Repr, DecidableEq

inductive AgentT where
  | mk (kind : GKind) (name : String) (subAgents : List AgentT)
       (tools : List String)

def AgentT.kind : AgentT → GKind
  | .mk k _ _ _ => k

def AgentT.name : AgentT → String
  | .mk _ n _ _ => n

def AgentT.subAgents : AgentT → List AgentT
  | .mk _ _ s _ => s

def lightGreen : String := "#69CB87"

def lightGray : String := "#cccccc"

/-- `getNodeName`. -/
def getNodeName (a : AgentT) : String :=
  match a.kind with
  | .sequential => a.name ++ " (Sequential Agent)"
  | .loop => a.name ++ " (Loop Agent)"
  | .parallel => a.name ++ " (Parallel Agent)"
  | .llm => a.name

/-- `shouldBuildAgentCluster`. -/
def shouldBuildAgentCluster (a : AgentT) : Bool :=
  match a.kind with
  | .sequential => true
  | .loop => true
  | .parallel => true
  | .llm => false

structure GNode where
  name : String
  caption : String
  shape : String
  highlighted : Bool
deriving Repr, DecidableEq

structure GEdge where
  src : String
  dst : String
  color : String
  dirBack : Bool
deriving Repr, DecidableEq

structure Graph where
  nodes : List GNode
  clusters : List String
  edges : List GEdge
deriving Repr, DecidableEq

def emptyGraph : Graph := ⟨[], [], []⟩

def addNode (g : Graph) (n : GNode) : Graph :=
  { g with nodes := g.nodes ++ [n] }

def addCluster (g : Graph) (nm : String) : Graph :=
  { g with clusters := g.clusters ++ ["cluster_" ++ nm] }

def agentNode (a : AgentT) (highlighted : Bool) : GNode :=
  ⟨getNodeName a, "🤖 " ++ a.name, "ellipse", highlighted⟩

def toolNode (tn : String) (highlighted : Bool) : GNode :=
  ⟨tn, "🔧 " ++ tn, "box", highlighted⟩

/-- The highlight-pair scan of `drawEdge`: `some back` when a pair
matches, with the direction reversed for a backwards match. -/
def findHighlight : List (String × String) → String → String → Option Bool
  | [], _, _ => none
  | (hf, ht) :: rest, f, t =>
    if f == hf && t == ht then some false
    else if f == ht && t == hf then some true
    else findHighlight rest f t

/-- `drawEdge` of a `buildGraph` invocation whose root agent is
`root`. -/
def drawEdge (root : AgentT) (hl : List (String × String)) (g : Graph)
    (f t : String) : Graph :=
  match findHighlight hl f t with
  | some back => { g with edges := g.edges ++ [⟨f, t, lightGreen, back⟩] }
  | none =>
    if shouldBuildAgentCluster root then
      { g with edges := g.edges ++ [⟨f, t, lightGreen, false⟩] }
    else
      { g with edges := g.edges ++ [⟨f, t, lightGray, false⟩] }

/-- The error thrown by `agent.subAgents[0].name` when `subAgents` is
empty. -/
def typeErrorUndefined : String :=
  "TypeError: Cannot read properties of undefined (reading 'name')"

mutual

/-- `buildGraph(graph, rootAgent, highlightsPairs, parentAgent?)`:
draw the root's node or cluster (recursing into `buildCluster` for
Sequential/Loop/Parallel agents), then recurse into every sub-agent,
then draw the tool nodes of an Llm agent. -/
def buildGraphE (g : Graph) : AgentT → List (String × String) →
    Option AgentT → Except String Graph
  | .mk kind nm subs tools, hl, parent => do
    let a := AgentT.mk kind nm subs tools
    let nodeName := getNodeName a
    let g ←
      match kind with
      | GKind.loop => do
        let g := addCluster g nodeName
        let g ←
          match parent, subs with
          | some _, [] => Except.error typeErrorUndefined
          | some p, s0 :: _ => pure (drawEdge a hl g p.name s0.name)
          | none, _ => pure g
        match subs with
        | [] => pure g
        | s0 :: rest => loopClusterAux g a s0 (s0 :: rest) hl
      | GKind.sequential => do
        let g := addCluster g nodeName
        let g ←
          match parent, subs with
          | some _, [] => Except.error typeErrorUndefined
          | some p, s0 :: _ => pure (drawEdge a hl g p.name s0.name)
          | none, _ => pure g
        seqClusterAux g a subs hl
      | GKind.parallel =>
        parClusterAux (addCluster g nodeName) a subs hl parent
      | GKind.llm =>
        pure (addNode g (agentNode a
          (hl.any fun pr => pr.1 == nodeName || pr.2 == nodeName)))
    let g ← buildSubsTop g a subs hl
    match kind with
    | GKind.llm =>
      pure (tools.foldl (fun acc tn =>
        drawEdge a hl
          (addNode acc (toolNode tn
            (hl.any fun pr => pr.1 == tn || pr.2 == tn)))
          nm tn) g)
    | _ => pure g
termination_by a _ _ => (sizeOf a, 1)

/-- `buildCluster`, LoopAgent branch: recurse into each sub-agent and
draw an edge to its successor, wrapping the last sub-agent around to
the first. -/
def loopClusterAux (g : Graph) (agent first : AgentT) :
    List AgentT → List (String × String) → Except String Graph
  | [], _ => pure g
  | [x], hl => do
    let g ← buildGraphE g x hl (some agent)
    pure (drawEdge agent hl g x.name first.name)
  | x :: y :: rest, hl => do
    let g ← buildGraphE g x hl (some agent)
    loopClusterAux (drawEdge agent hl g x.name y.name) agent first
      (y :: rest) hl
termination_by subs _ => (sizeOf subs, 0)

/-- `buildCluster`, SequentialAgent branch: recurse into each sub-agent
and draw an edge to its successor (none after the last). -/
def seqClusterAux (g : Graph) (agent : AgentT) :
    List AgentT → List (String × String) → Except String Graph
  | [], _ => pure g
  | [x], hl => buildGraphE g x hl (some agent)
  | x :: y :: rest, hl => do
    let g ← buildGraphE g x hl (some agent)
    seqClusterAux (drawEdge agent hl g x.name y.name) agent (y :: rest) hl
termination_by subs _ => (sizeOf subs, 0)

/-- `buildCluster`, ParallelAgent branch: recurse into each sub-agent,
drawing an edge from the parent when one is present. -/
def parClusterAux (g : Graph) (agent : AgentT) :
    List AgentT → List (String × String) → Option AgentT →
    Except String Graph
  | [], _, _ => pure g
  | x :: rest, hl, parent => do
    let g ← buildGraphE g x hl (some agent)
    let g :=
      match parent with
      | some p => drawEdge agent hl g p.name x.name
      | none => g
    parClusterAux g agent rest hl parent
termination_by subs _ _ => (sizeOf subs, 0)

/-- The sub-agent loop in the body of `buildGraph`: recurse into each
sub-agent and, when neither the sub-agent nor the root is a cluster,
draw the root-to-sub edge. -/
def buildSubsTop (g : Graph) (root : AgentT) :
    List AgentT → List (String × String) → Except String Graph
  | [], _ => pure g
  | x :: rest, hl => do
    let g ← buildGraphE g x hl (some root)
    let g :=
      if !shouldBuildAgentCluster x && !shouldBuildAgentCluster root then
        drawEdge root hl g root.name x.name
      else g
    buildSubsTop g root rest hl
termination_by subs _ => (sizeOf subs, 0)

end

/-- C10. Calling `buildGraph` on a LoopAgent or SequentialAgent with an
empty `subAgents` array while a `parentAgent` is supplied dereferences
`agent.subAgents[0].name` on an undefined element and throws a
TypeError instead of producing a graph; in particular an empty Loop
nested inside a Sequential agent makes the whole build fail. -/
theorem build_graph_empty_composite_type_error (g : Graph)
    (hl : List (String × String)) (parent : AgentT) (nm : String)
    (tools : List String) (k : GKind)
    (hk : k = GKind.loop ∨ k = GKind.sequential) :
    buildGraphE g (AgentT.mk k nm [] tools) hl (some parent) =
      Except.error typeErrorUndefined ∧
    buildGraphE emptyGraph
        (AgentT.mk GKind.sequential "outer"
          [AgentT.mk GKind.loop "inner" [] []] []) [] none =
      Except.error typeErrorUndefined := by
  constructor
  · rcases hk with rfl | rfl <;>
      simp [buildGraphE, Bind.bind, Except.bind]
  · simp [buildGraphE, seqClusterAux, Bind.bind, Except.bind,
      Pure.pure, Except.pure]

/-- Witness for C10 at a concrete empty Loop agent under a parent. -/
theorem build_graph_empty_composite_type_error_witness :
    buildGraphE emptyGraph (AgentT.mk GKind.loop "inner" [] []) []
        (some (AgentT.mk GKind.sequential "outer" [] [])) =
      Except.error typeErrorUndefined :=
  (build_graph_empty_composite_type_error emptyGraph []
    (AgentT.mk GKind.sequential "outer" [] []) "inner" [] GKind.loop
    (Or.inl rfl)).1

end GraphViz
end Adk
